import Mathlib

set_option autoImplicit false

/-!
Verification of the stasium daemon core against its specification.

The Go source is shallowly embedded: strings are Lean `String`s (or
`List Char` where character-level scanning matters), Go maps are
association lists, `float64` gauges are embedded as `ℚ` (every finite
IEEE double is a rational; NaN/Inf are outside the model), and Go's
64-bit integer arithmetic is `Int` with explicit wrapping modulo 2^64.
Side effects (file writes, process spawns) are made explicit parameters
or state transformers.
-/

namespace Stasium

/-! ## Association lists: the embedding of Go maps.

`lookupA` is map indexing, `insertA` is `m[k] = v` (replace in place,
append when absent), `eraseA` is `delete(m, k)`. -/

def lookupA {α : Type} : List (String × α) → String → Option α
  | [], _ => none
  | kv :: rest, k => if kv.1 = k then some kv.2 else lookupA rest k

def insertA {α : Type} : List (String × α) → String → α → List (String × α)
  | [], k, v => [(k, v)]
  | kv :: rest, k, v => if kv.1 = k then (k, v) :: rest else kv :: insertA rest k v

def eraseA {α : Type} (l : List (String × α)) (k : String) : List (String × α) :=
  l.filter (fun kv => kv.1 ≠ k)

theorem lookupA_insertA_self {α : Type} (l : List (String × α)) (k : String) (v : α) :
    lookupA (insertA l k v) k = some v := by
  induction l with
  | nil => simp [insertA, lookupA]
  | cons kv rest ih =>
    by_cases h : kv.1 = k
    · simp [insertA, h, lookupA]
    · simp [insertA, h, lookupA, ih]

theorem lookupA_eq_none_iff {α : Type} (l : List (String × α)) (k : String) :
    lookupA l k = none ↔ k ∉ l.map Prod.fst := by
  induction l with
  | nil => simp [lookupA]
  | cons kv rest ih =>
    by_cases h : kv.1 = k
    · simp [lookupA, h]
    · simp [lookupA, h, ih]
      intro hk
      exact fun he => h he.symm

/-! ## pkg/core/item.go — the item ID codec.

`ItemID` formats `kind:provider:native_id`; `ParseItemID` splits on the
first two `:` via `strings.SplitN(id, ":", 3)` and fails when fewer than
three parts result.  Strings are embedded at the character-list level
because the codec is character-level. -/

def itemID (kind provider nativeID : List Char) : List Char :=
  kind ++ ':' :: (provider ++ ':' :: nativeID)

/-- Go `strings.SplitN(s, sep, _)` step: split off everything before the
first `sep`; `none` when `sep` does not occur. -/
def splitFirst (sep : Char) : List Char → Option (List Char × List Char)
  | [] => none
  | c :: rest =>
    if c = sep then some ([], rest)
    else
      match splitFirst sep rest with
      | none => none
      | some (a, b) => some (c :: a, b)

/-- Go `core.ParseItemID`: `SplitN(id, ":", 3)` produces three parts iff the
id has at least two colons; otherwise the malformed-id error (`none` here). -/
def parseItemID (id : List Char) : Option (List Char × List Char × List Char) :=
  match splitFirst ':' id with
  | none => none
  | some (k, rest) =>
    match splitFirst ':' rest with
    | none => none
    | some (p, n) => some (k, p, n)

theorem splitFirst_append {sep : Char} {a : List Char} (b : List Char) (ha : sep ∉ a) :
    splitFirst sep (a ++ sep :: b) = some (a, b) := by
  induction a with
  | nil => simp [splitFirst]
  | cons c a' ih =>
    have hc : c ≠ sep := fun h => ha (h ▸ List.mem_cons_self c a')
    have ha' : sep ∉ a' := fun h => ha (List.mem_cons_of_mem c h)
    simp [splitFirst, hc, ih ha']

theorem splitFirst_eq_none_iff (sep : Char) (l : List Char) :
    splitFirst sep l = none ↔ sep ∉ l := by
  induction l with
  | nil => simp [splitFirst]
  | cons c rest ih =>
    by_cases h : c = sep
    · simp [splitFirst, h]
    · have hcs : sep ≠ c := fun he => h he.symm
      cases hs : splitFirst sep rest with
      | none =>
        have hrest : sep ∉ rest := ih.mp hs
        simp [splitFirst, h, hs, hcs, hrest]
      | some ab =>
        obtain ⟨a, b⟩ := ab
        have hrest : sep ∈ rest := by
          by_contra hmem
          rw [ih.mpr hmem] at hs
          exact Option.noConfusion hs
        simp [splitFirst, h, hs, hrest]

theorem splitFirst_eq_some {sep : Char} {l a b : List Char}
    (h : splitFirst sep l = some (a, b)) : l = a ++ sep :: b ∧ sep ∉ a := by
  induction l generalizing a b with
  | nil => simp [splitFirst] at h
  | cons c rest ih =>
    by_cases hc : c = sep
    · simp only [splitFirst, if_pos hc, Option.some.injEq, Prod.mk.injEq] at h
      obtain ⟨ha, hb⟩ := h
      subst hc
      simp [← ha, ← hb]
    · simp only [splitFirst, if_neg hc] at h
      cases hs : splitFirst sep rest with
      | none => rw [hs] at h; exact Option.noConfusion h
      | some ab =>
        obtain ⟨a', b'⟩ := ab
        rw [hs] at h
        simp only [Option.some.injEq, Prod.mk.injEq] at h
        obtain ⟨ha, hb⟩ := h
        obtain ⟨hl, hna⟩ := ih hs
        subst hb
        rw [← ha]
        constructor
        · rw [hl]; simp
        · intro hmem
          rcases List.mem_cons.mp hmem with h1 | h2
          · exact hc h1.symm
          · exact hna h2

theorem splitFirst_count {sep : Char} {l a b : List Char}
    (h : splitFirst sep l = some (a, b)) : l.count sep = b.count sep + 1 := by
  obtain ⟨hl, hna⟩ := splitFirst_eq_some h
  subst hl
  rw [List.count_append, List.count_cons_self, List.count_eq_zero.mpr hna]
  omega

/-- C6: for every kind `k`, provider `p` and native id `n` with `k` and `p`
free of the `:` delimiter, `ParseItemID (ItemID k p n) = (k, p, n)` (even when
`n` contains `:`), and decoding returns the malformed-id error exactly when
the input holds fewer than two delimiters, i.e. splits into fewer than three
parts. -/
theorem itemID_roundtrip_and_malformed (k p n : List Char)
    (hk : ':' ∉ k) (hp : ':' ∉ p) :
    parseItemID (itemID k p n) = some (k, p, n) ∧
    ∀ s : List Char, parseItemID s = none ↔ s.count ':' < 2 := by
  constructor
  · unfold itemID parseItemID
    simp only [splitFirst_append (p ++ ':' :: n) hk, splitFirst_append n hp]
  · intro s
    unfold parseItemID
    cases h1 : splitFirst ':' s with
    | none =>
      have hs : ':' ∉ s := (splitFirst_eq_none_iff ':' s).mp h1
      have hc : s.count ':' = 0 := List.count_eq_zero.mpr hs
      simp [hc]
    | some kr =>
      obtain ⟨k1, rest⟩ := kr
      have hcount : s.count ':' = rest.count ':' + 1 := splitFirst_count h1
      cases h2 : splitFirst ':' rest with
      | none =>
        have hc : rest.count ':' = 0 :=
          List.count_eq_zero.mpr ((splitFirst_eq_none_iff ':' rest).mp h2)
        simp [h2, hcount, hc]
      | some pn =>
        obtain ⟨p1, n1⟩ := pn
        have hc : rest.count ':' = n1.count ':' + 1 := splitFirst_count h2
        simp only [h2, hcount, hc]
        simp

/-- Witness for C6 at a concrete input whose native id itself contains the
delimiter. -/
theorem itemID_roundtrip_witness :
    parseItemID (itemID "exec".data "supervisor".data "my:name".data) =
      some ("exec".data, "supervisor".data, "my:name".data) :=
  (itemID_roundtrip_and_malformed "exec".data "supervisor".data "my:name".data
    (by decide) (by decide)).1

/-! ## pkg/manifest — the manifest document (manifest.go). -/

structure MGroup where
  name : String
  items : List String
  deriving DecidableEq

/-- Go `manifest.Item` — the tagged union over `kind` with kind-specific
fields; absent YAML fields are the empty string / empty list, as in Go. -/
structure MItem where
  kind : String
  unit : String
  command : String
  dir : String
  restart : String
  env : List (String × String)
  container : String
  composeFile : String
  service : String
  files : List String
  deriving DecidableEq

structure ComposeRef where
  file : String
  deriving DecidableEq

structure Rule where
  matchOn : List (String × String)
  score : Int
  deriving DecidableEq

structure Manifest where
  version : Int
  project : String
  root : String
  groups : List MGroup
  items : List (String × MItem)
  compose : Option ComposeRef
  rules : List Rule
  filePath : String
  deriving DecidableEq

/-! ## Interpolation (manifest.go `interpolate`).

Go builds `vars = {root: m.Root, project: m.Project}` and replaces every
regex match of `\$\{(\w+)\}` by `vars[name]` when defined, leaving the
match literal otherwise.  `ReplaceAllStringFunc` finds non-overlapping
leftmost matches and never rescans replacement text; `expandFuel` scans
the same way, one character at a time, fuelled by the input length so the
function is structurally recursive (hence kernel-computable). -/

def isWordChar (c : Char) : Bool := c.isAlpha || c.isDigit || c = '_'

/-- Replacement for one regex match `${name}`: the variable's value when
`name ∈ {root, project}`, the literal match text otherwise. -/
def subVar (root project : List Char) (name : List Char) : List Char :=
  if name = "root".data then root
  else if name = "project".data then project
  else '$' :: '{' :: (name ++ ['}'])

def expandFuel (root project : List Char) : Nat → List Char → List Char
  | _, [] => []
  | 0, c :: rest => c :: rest
  | fuel + 1, c :: rest =>
    if c = '$' ∧ rest.head? = some '{' then
      if rest.tail.takeWhile isWordChar ≠ [] ∧
          (rest.tail.dropWhile isWordChar).head? = some '}' then
        subVar root project (rest.tail.takeWhile isWordChar) ++
          expandFuel root project fuel (rest.tail.dropWhile isWordChar).tail
      else c :: expandFuel root project fuel rest
    else c :: expandFuel root project fuel rest

def expand (root project : List Char) (s : List Char) : List Char :=
  expandFuel root project s.length s

def expandS (root project s : String) : String :=
  String.mk (expand root.data project.data s.data)

def interpolateItem (root project : String) (it : MItem) : MItem :=
  { it with
    dir := expandS root project it.dir
    composeFile := expandS root project it.composeFile
    files := it.files.map (expandS root project) }

/-- Go `manifest.interpolate`: expands the interpolatable fields of every
item and the external compose reference against the document's own `root`
and `project`; no other field of the document is touched. -/
def interpolate (m : Manifest) : Manifest :=
  { m with
    items := m.items.map (fun kv => (kv.1, interpolateItem m.root m.project kv.2))
    compose := m.compose.map (fun c => { c with file := expandS m.root m.project c.file }) }

theorem takeWhile_all_append {p : Char → Bool} {name : List Char} (x : Char)
    (tail : List Char) (h : ∀ c ∈ name, p c = true) (hx : p x = false) :
    (name ++ x :: tail).takeWhile p = name ∧
    (name ++ x :: tail).dropWhile p = x :: tail := by
  induction name with
  | nil => simp [List.takeWhile, List.dropWhile, hx]
  | cons c name' ih =>
    have hc : p c = true := h c (List.mem_cons_self c name')
    have h' : ∀ d ∈ name', p d = true := fun d hd => h d (List.mem_cons_of_mem c hd)
    obtain ⟨iht, ihd⟩ := ih h'
    simp [List.takeWhile, List.dropWhile, hc, iht, ihd]

theorem length_dropWhile_le (p : Char → Bool) (l : List Char) :
    (l.dropWhile p).length ≤ l.length := by
  induction l with
  | nil => simp [List.dropWhile]
  | cons c rest ih =>
    by_cases h : p c
    · simp [List.dropWhile, h]; omega
    · simp [List.dropWhile, h]

theorem expandFuel_congr (root project : List Char) :
    ∀ (f g : Nat) (s : List Char), s.length ≤ f → s.length ≤ g →
      expandFuel root project f s = expandFuel root project g s := by
  intro f
  induction f with
  | zero =>
    intro g s hf _
    have hs : s = [] := List.length_eq_zero.mp (Nat.le_zero.mp hf)
    subst hs
    cases g <;> simp [expandFuel]
  | succ f ih =>
    intro g s hf hg
    cases s with
    | nil => cases g <;> simp [expandFuel]
    | cons c rest =>
      cases g with
      | zero => simp at hg
      | succ g' =>
        have hrest_f : rest.length ≤ f := by simp at hf; omega
        have hrest_g : rest.length ≤ g' := by simp at hg; omega
        have htail : rest.tail.length ≤ rest.length := by
          cases rest <;> simp
        have hdrop := length_dropWhile_le isWordChar rest.tail
        have hdtail : (rest.tail.dropWhile isWordChar).tail.length ≤
            (rest.tail.dropWhile isWordChar).length := by
          cases hh : rest.tail.dropWhile isWordChar <;> simp
        simp only [expandFuel]
        by_cases h1 : c = '$' ∧ rest.head? = some '{'
        · rw [if_pos h1, if_pos h1]
          by_cases h2 : rest.tail.takeWhile isWordChar ≠ [] ∧
              (rest.tail.dropWhile isWordChar).head? = some '}'
          · rw [if_pos h2, if_pos h2]
            congr 1
            exact ih g' _ (by omega) (by omega)
          · rw [if_neg h2, if_neg h2]
            congr 1
            exact ih g' rest hrest_f hrest_g
        · rw [if_neg h1, if_neg h1]
          congr 1
          exact ih g' rest hrest_f hrest_g

theorem expandFuel_match_step (root project : List Char) (fuel : Nat)
    (name tail : List Char) (hw : ∀ c ∈ name, isWordChar c = true)
    (hne : name ≠ []) :
    expandFuel root project (fuel + 1) ('$' :: '{' :: (name ++ '}' :: tail)) =
      subVar root project name ++ expandFuel root project fuel tail := by
  obtain ⟨ht, hd⟩ := takeWhile_all_append '}' tail hw (by decide)
  simp only [expandFuel, List.tail_cons, ht, hd, List.head?_cons]
  simp [hne]

/-- One leftmost regex match `${name}` at the head of the scan is replaced by
its substitution and scanning continues after the match (replacement text is
never rescanned, as with Go `ReplaceAllStringFunc`). -/
theorem expand_match_step (root project : List Char) (name tail : List Char)
    (hw : ∀ c ∈ name, isWordChar c = true) (hne : name ≠ []) :
    expand root project ('$' :: '{' :: (name ++ '}' :: tail)) =
      subVar root project name ++ expand root project tail := by
  have hlen : ('$' :: '{' :: (name ++ '}' :: tail)).length
      = name.length + tail.length + 2 + 1 := by
    simp [List.length_append, List.length_cons]
    omega
  unfold expand
  rw [hlen, expandFuel_match_step root project _ name tail hw hne]
  congr 1
  exact expandFuel_congr root project (name.length + tail.length + 2) tail.length tail
    (by omega) (Nat.le_refl _)

/-- C5: loading interpolates `${root}` and `${project}` in every
interpolatable field of every manifest item (`dir`, the per-item compose
file, `files`) and in the external compose reference, substituting the
document's own `root` and `project` values; a placeholder with any other
name is left literal; all other item fields, and in particular the
document's `root` field itself, are never interpolated. -/
theorem manifest_interpolation_semantics (m : Manifest) (name tail : List Char)
    (hw : ∀ c ∈ name, isWordChar c = true) (hne : name ≠ [])
    (hnr : name ≠ "root".data) (hnp : name ≠ "project".data) :
    (interpolate m).root = m.root ∧
    (interpolate m).project = m.project ∧
    (interpolate m).version = m.version ∧
    (interpolate m).groups = m.groups ∧
    (interpolate m).rules = m.rules ∧
    (interpolate m).filePath = m.filePath ∧
    (interpolate m).items =
      m.items.map (fun kv => (kv.1, interpolateItem m.root m.project kv.2)) ∧
    (interpolate m).compose =
      m.compose.map (fun c => ⟨expandS m.root m.project c.file⟩) ∧
    (∀ it : MItem,
      (interpolateItem m.root m.project it).dir = expandS m.root m.project it.dir ∧
      (interpolateItem m.root m.project it).composeFile
        = expandS m.root m.project it.composeFile ∧
      (interpolateItem m.root m.project it).files
        = it.files.map (expandS m.root m.project) ∧
      (interpolateItem m.root m.project it).kind = it.kind ∧
      (interpolateItem m.root m.project it).unit = it.unit ∧
      (interpolateItem m.root m.project it).command = it.command ∧
      (interpolateItem m.root m.project it).restart = it.restart ∧
      (interpolateItem m.root m.project it).env = it.env ∧
      (interpolateItem m.root m.project it).container = it.container ∧
      (interpolateItem m.root m.project it).service = it.service) ∧
    expand m.root.data m.project.data ('$' :: '{' :: ("root".data ++ '}' :: tail))
      = m.root.data ++ expand m.root.data m.project.data tail ∧
    expand m.root.data m.project.data ('$' :: '{' :: ("project".data ++ '}' :: tail))
      = m.project.data ++ expand m.root.data m.project.data tail ∧
    expand m.root.data m.project.data ('$' :: '{' :: (name ++ '}' :: tail))
      = '$' :: '{' :: (name ++ '}' :: expand m.root.data m.project.data tail) := by
  refine ⟨rfl, rfl, rfl, rfl, rfl, rfl, rfl, rfl,
    fun it => ⟨rfl, rfl, rfl, rfl, rfl, rfl, rfl, rfl, rfl, rfl⟩, ?_, ?_, ?_⟩
  · rw [expand_match_step m.root.data m.project.data "root".data tail
      (by decide) (by decide)]
    simp [subVar]
  · rw [expand_match_step m.root.data m.project.data "project".data tail
      (by decide) (by decide)]
    have h1 : ("project".data : List Char) ≠ "root".data := by decide
    simp [subVar, h1]
  · rw [expand_match_step m.root.data m.project.data name tail hw hne]
    simp [subVar, hnr, hnp]

def manifestW : Manifest :=
  ⟨1, "my", "/app", [], [("db", ⟨"docker", "", "", "", "", [], "mysql", "", "", []⟩)],
    none, [], "/tmp/stasium.yaml"⟩

/-- Witness for C5: an unknown placeholder name is left literal. -/
theorem manifest_interpolation_witness :
    expand "/app".data "my".data ('$' :: '{' :: ("other".data ++ '}' :: "x".data))
      = '$' :: '{' :: ("other".data ++ '}' :: expand "/app".data "my".data "x".data) := by
  obtain ⟨-, -, -, -, -, -, -, -, -, -, -, h⟩ :=
    manifest_interpolation_semantics manifestW "other".data "x".data
      (by decide) (by decide) (by decide) (by decide)
  exact h

/-! ## Validation (validate.go) and manifest mutation (update_manifest.go).

The three mutations operate on the daemon's in-memory manifest; the file
write (`manifest.Save`) is represented by a `saveErr` parameter: `none`
means the write succeeded, `some e` that it failed with message `e`.
Live-reload side effects on the supervisor are outside these functions. -/

def quoteS (s : String) : String := "\"" ++ s ++ "\""

/-- Go `Validate`'s per-item switch on `item.Kind` (error text as in the
source's `fmt.Errorf`, with `%q` rendered as plain double quotes). -/
def itemErrors (pname : String) (it : MItem) : List String :=
  if it.kind = "systemd" then
    if it.unit = "" then ["item " ++ quoteS pname ++ " (systemd): unit is required"]
    else []
  else if it.kind = "exec" then
    (if it.command = "" then ["item " ++ quoteS pname ++ " (exec): command is required"]
     else [])
    ++ (if it.restart ≠ "" ∧ it.restart ≠ "always" ∧ it.restart ≠ "on-failure"
          ∧ it.restart ≠ "never" then
        ["item " ++ quoteS pname
          ++ " (exec): restart must be always, on-failure, or never; got "
          ++ quoteS it.restart]
      else [])
  else if it.kind = "docker" then
    if it.container = "" ∧ (it.composeFile = "" ∨ it.service = "") then
      ["item " ++ quoteS pname ++ " (docker): container or compose+service is required"]
    else []
  else if it.kind = "log" then
    if it.files = [] then ["item " ++ quoteS pname ++ " (log): files is required"]
    else []
  else if it.kind = "" then ["item " ++ quoteS pname ++ ": kind is required"]
  else ["item " ++ quoteS pname ++ ": unknown kind " ++ quoteS it.kind]

/-- Go `manifest.Validate`: version check, non-empty items, per-item kind
checks, and group references, with errors accumulated in that order. -/
def validate (m : Manifest) : List String :=
  (if m.version ≠ 1 then ["version must be 1, got " ++ toString m.version] else [])
  ++ (if m.items = [] then ["manifest must define at least one item"] else [])
  ++ (m.items.map (fun kv => itemErrors kv.1 kv.2)).flatten
  ++ (m.groups.map (fun g =>
        (g.items.filter (fun ref => (lookupA m.items ref).isNone)).map
          (fun ref => "group " ++ quoteS g.name ++ " references unknown item "
            ++ quoteS ref))).flatten

structure UpdResponse where
  ok : Bool
  errors : List String
  deriving DecidableEq

/-- Go `patchToItem`'s only check beyond JSON decoding: kind is required. -/
def patchToItem (patch : MItem) : Except String MItem :=
  if patch.kind = "" then Except.error "item kind is required" else Except.ok patch

/-- Go `applyAddItem`: conflict check, decode, insert into the items map,
validate (rolling the insert back on failure), save (rolling back on
failure), else commit. -/
def applyAddItem (saveErr : Option String) (m : Manifest) (pname : String)
    (patch : MItem) : Manifest × UpdResponse :=
  if (lookupA m.items pname).isSome then
    (m, ⟨false, ["item already exists: " ++ pname]⟩)
  else
    match patchToItem patch with
    | Except.error e => (m, ⟨false, [e]⟩)
    | Except.ok item =>
      let m1 : Manifest := { m with items := insertA m.items pname item }
      let errs := validate m1
      if errs ≠ [] then
        ({ m1 with items := eraseA m1.items pname }, ⟨false, errs⟩)
      else
        match saveErr with
        | some e => ({ m1 with items := eraseA m1.items pname }, ⟨false, [e]⟩)
        | none => (m1, ⟨true, []⟩)

/-- Go `applyUpdateItem`: existence check, decode, overwrite the entry,
validate (restoring the old entry on failure), save (restoring on
failure), else commit. -/
def applyUpdateItem (saveErr : Option String) (m : Manifest) (pname : String)
    (patch : MItem) : Manifest × UpdResponse :=
  match lookupA m.items pname with
  | none => (m, ⟨false, ["item not found: " ++ pname]⟩)
  | some old =>
    match patchToItem patch with
    | Except.error e => (m, ⟨false, [e]⟩)
    | Except.ok item =>
      let m1 : Manifest := { m with items := insertA m.items pname item }
      let errs := validate m1
      if errs ≠ [] then
        ({ m1 with items := insertA m1.items pname old }, ⟨false, errs⟩)
      else
        match saveErr with
        | some e => ({ m1 with items := insertA m1.items pname old }, ⟨false, [e]⟩)
        | none => (m1, ⟨true, []⟩)

/-- Go `applyRemoveItem`: deletes the entry, scrubs the name from every
group's membership list (filter, order preserved), then saves; a failing
save restores the items map entry but leaves the groups scrubbed. -/
def applyRemoveItem (saveErr : Option String) (m : Manifest) (pname : String) :
    Manifest × UpdResponse :=
  match lookupA m.items pname with
  | none => (m, ⟨false, ["item not found: " ++ pname]⟩)
  | some old =>
    let m1 : Manifest := { m with items := eraseA m.items pname }
    let scrubbed : List MGroup :=
      m1.groups.map (fun g => ⟨g.name, g.items.filter (fun ref => ref ≠ pname)⟩)
    let m2 : Manifest := { m1 with groups := scrubbed }
    match saveErr with
    | some e => ({ m2 with items := insertA m2.items pname old }, ⟨false, [e]⟩)
    | none => (m2, ⟨true, []⟩)

def execItemC1 : MItem := ⟨"exec", "", "php artisan serve", "/app", "", [], "", "", "", []⟩

def systemdItemC1 : MItem := ⟨"systemd", "nginx.service", "", "", "", [], "", "", "", []⟩

def manifestC1 : Manifest :=
  ⟨1, "test", "/app", [⟨"web", ["serve", "nginx"]⟩],
   [("serve", execItemC1), ("nginx", systemdItemC1)], none, [], "/tmp/stasium.yaml"⟩

/-- C1 (code bug): removing an item that belongs to a group when the
manifest file write fails returns `{ok: false, errors: [...]}` as claimed,
but the in-memory manifest is NOT restored to its pre-mutation state: the
items map entry comes back, while the group scrubbing — "serve" removed
from group "web" — persists. -/
theorem removeItem_write_failure_scrubs_groups :
    (applyRemoveItem (some "write /tmp/stasium.yaml: permission denied")
        manifestC1 "serve").2.ok = false ∧
    (applyRemoveItem (some "write /tmp/stasium.yaml: permission denied")
        manifestC1 "serve").2.errors
      = ["write /tmp/stasium.yaml: permission denied"] ∧
    manifestC1.groups = [⟨"web", ["serve", "nginx"]⟩] ∧
    (applyRemoveItem (some "write /tmp/stasium.yaml: permission denied")
        manifestC1 "serve").1.groups = [⟨"web", ["nginx"]⟩] ∧
    (applyRemoveItem (some "write /tmp/stasium.yaml: permission denied")
        manifestC1 "serve").1 ≠ manifestC1 ∧
    lookupA (applyRemoveItem (some "write /tmp/stasium.yaml: permission denied")
        manifestC1 "serve").1.items "serve" = some execItemC1 ∧
    lookupA (applyRemoveItem (some "write /tmp/stasium.yaml: permission denied")
        manifestC1 "serve").1.items "nginx" = some systemdItemC1 := by
  decide

/-! ## pkg/daemon/supervisor.go.

A `SupervisedProcess` record and the supervisor's name-keyed map.  The
goroutine structure (wait handler, pipe readers) is embedded as explicit
state-transition functions on the record; runtime inputs that the OS
provides (exit code, new pid, clock, context cancellation) are explicit
parameters. -/

structure LogLine where
  itemId : String
  tsUnixMs : Int
  stream : String
  line : String
  deriving DecidableEq

structure SupProc where
  name : String
  command : String
  dir : String
  env : List (String × String)
  restart : String
  status : String
  pid : Nat
  startedAt : Nat
  failures : Nat
  stdoutRing : List LogLine
  stderrRing : List LogLine
  deriving DecidableEq

abbrev SupState := List (String × SupProc)

/-- Go `Supervisor.Register`: unconditionally stores a fresh record under
`name` (status stopped, pid 0, zero start time, zero failures, empty log
rings), defaulting an empty restart policy to on-failure. -/
def register (s : SupState) (pname command dir : String)
    (env : List (String × String)) (restart : String) : SupState :=
  insertA s pname
    ⟨pname, command, dir, env, (if restart = "" then "on-failure" else restart),
     "stopped", 0, 0, 0, [], []⟩

/-- Go `Supervisor.Status`: a read-only query; an unknown name yields
(unknown, 0, zero time) rather than an error.  The method performs no
writes, so the embedding returns the state unchanged. -/
def statusOp (s : SupState) (pname : String) : (String × Nat × Nat) × SupState :=
  match lookupA s pname with
  | none => (("unknown", 0, 0), s)
  | some p => ((p.status, p.pid, p.startedAt), s)

/-- Go `waitAndRestart` up to the respawn decision: given whether the
supervisor context is cancelled and the child's exit code, update the
record exactly as the wait handler does and report whether a respawn
(after the backoff sleep) follows. -/
def waitExitStep (shutdown : Bool) (exitCode : Int) (p : SupProc) : SupProc × Bool :=
  let p1 : SupProc := { p with pid := 0 }
  if shutdown then ({ p1 with status := "stopped" }, false)
  else
    let p2 : SupProc :=
      if exitCode = 0 then { p1 with status := "stopped" }
      else { p1 with status := "failed" }
    let p3 : SupProc := { p2 with failures := p2.failures + 1 }
    let should : Bool :=
      if p3.restart = "always" then true
      else if p3.restart = "on-failure" then decide (exitCode ≠ 0)
      else false
    if should then ({ p3 with status := "restarting" }, true) else (p3, false)

/-- Go `spawn`'s successful state update: record the new child's pid and
start time and enter running. -/
def spawnStep (newPid now : Nat) (p : SupProc) : SupProc :=
  { p with status := "running", pid := newPid, startedAt := now }

/-- Go `startProcess`: a no-op when already running, otherwise spawn. -/
def startProcess (newPid now : Nat) (p : SupProc) : SupProc :=
  if p.status = "running" then p else spawnStep newPid now p

/-- Go `stopProcess`: a no-op unless running (a running record has a live
`cmd`); otherwise sets the restart policy to never ("prevent auto-restart")
and, after signalling and reaping the group, records stopped with pid 0. -/
def stopProcess (p : SupProc) : SupProc :=
  if p.status ≠ "running" then p
  else { p with restart := "never", status := "stopped", pid := 0 }

/-! ## Go `backoff` (supervisor.go), with Go's 64-bit arithmetic. -/

/-- Two's-complement wrap of an unbounded integer into int64. -/
def int64wrap (x : Int) : Int := (x + 2 ^ 63) % 2 ^ 64 - 2 ^ 63

/-- Go `1 << uint(k)` at type int (64 bits): a shift count of 64 or more
yields 0, otherwise the two's-complement result of `2^k`. -/
def goShiftOne (k : Nat) : Int := if 64 ≤ k then 0 else int64wrap (2 ^ k)

def nsPerSecond : Int := 1000000000

/-- Go `backoff(failures)`: `time.Duration(1<<uint(failures-1)) * time.Second`,
returned unless it exceeds 30 s, in which case 30 s.  Shift and
multiplication are 64-bit and wrap.  (`failures = 0` would shift by
`uint(-1) ≥ 64`, giving 0; the function is only called with positive
counts.) -/
def backoff (failures : Nat) : Int :=
  let shifted : Int := if failures = 0 then 0 else goShiftOne (failures - 1)
  let d : Int := int64wrap (shifted * nsPerSecond)
  if d > 30 * nsPerSecond then 30 * nsPerSecond else d

/-- The spec's backoff formula `delay(n) = min(2^(n-1) s, 30 s)`, stated
from the spec's words for comparison with the implementation. -/
def backoffSpec (n : Nat) : Int := min (2 ^ (n - 1) * nsPerSecond) (30 * nsPerSecond)

set_option maxRecDepth 8192 in
/-- C2 (code bug): the implementation agrees with `min(2^(n-1) s, 30 s)` for
n = 1..34 (in particular 1, 2, 4, 8, 16, 30, 30 and 30 s for 6 ≤ n ≤ 34),
but at n = 35 the multiplication `2^34 * 1e9` overflows int64 and the
function returns a negative delay instead of the claimed 30 s. -/
theorem backoff_overflows_at_35 :
    (∀ n : Fin 34, backoff (n.val + 1) = backoffSpec (n.val + 1)) ∧
    backoff 6 = 30 * nsPerSecond ∧
    backoffSpec 35 = 30 * nsPerSecond ∧
    backoff 35 = -1266874889709551616 ∧
    backoff 35 < 0 := by
  decide

def procRunningC : SupProc :=
  ⟨"web", "php artisan serve", "/app", [], "always", "running", 42, 100, 3,
   [⟨"exec:supervisor:web", 1, "stdout", "listening"⟩], []⟩

/-- C3 counterexample: a running process with policy `always` is stopped by
the user and started again; its policy is then `never` — not the original
`always` — and a subsequent non-zero exit no longer respawns. -/
theorem stop_start_policy_counterexample :
    procRunningC.restart = "always" ∧
    (startProcess 43 200 (stopProcess procRunningC)).restart = "never" ∧
    (startProcess 43 200 (stopProcess procRunningC)).restart ≠ "always" ∧
    (waitExitStep false 1 (startProcess 43 200 (stopProcess procRunningC))).2 = false := by
  decide

/-- C3 (amended): with policy `always` and the supervisor not shutting
down, every exit — any exit code — decides a respawn: the record enters
restarting and the subsequent spawn enters running.  A user-initiated stop
of a running process sets the policy to `never` persistently, so a process
stopped and then started again keeps policy `never` until re-registered. -/
theorem always_policy_respawns (p : SupProc) (exitCode : Int)
    (hp : p.restart = "always") :
    (waitExitStep false exitCode p).2 = true ∧
    (waitExitStep false exitCode p).1.status = "restarting" ∧
    (∀ newPid now : Nat,
      (spawnStep newPid now (waitExitStep false exitCode p).1).status = "running") ∧
    (∀ (q : SupProc) (newPid now : Nat), q.status = "running" →
      (startProcess newPid now (stopProcess q)).restart = "never") := by
  refine ⟨?_, ?_, ?_, ?_⟩
  · by_cases he : exitCode = 0 <;> simp [waitExitStep, hp, he]
  · by_cases he : exitCode = 0 <;> simp [waitExitStep, hp, he]
  · intro newPid now
    by_cases he : exitCode = 0 <;> simp [waitExitStep, spawnStep, hp, he]
  · intro q newPid now hq
    simp [stopProcess, startProcess, spawnStep, hq]

/-- Witness for C3's amended theorem at a concrete always-policy record. -/
theorem always_policy_respawns_witness :
    (waitExitStep false 1 procRunningC).2 = true :=
  (always_policy_respawns procRunningC 1 rfl).1

def supStateC4 : SupState := [("web", procRunningC)]

/-- C4 counterexample: registering over a currently running process does
not leave its visible state intact — status, pid, start time and failure
count are reset by the replacement record. -/
theorem register_running_counterexample :
    (statusOp supStateC4 "web").1 = ("running", 42, 100) ∧
    (statusOp (register supStateC4 "web" "php artisan serve --port=9000" "/app" []
        "always") "web").1 = ("stopped", 0, 0) ∧
    (lookupA (register supStateC4 "web" "php artisan serve --port=9000" "/app" []
        "always") "web").map SupProc.failures = some 0 ∧
    (lookupA supStateC4 "web").map SupProc.failures = some 3 := by
  decide

/-- C4 (amended): Register is keyed by name and unconditionally replaces
the stored record with a fresh stopped one carrying the new configuration
(status stopped, pid 0, zero start time, zero failures, empty log rings),
defaulting an empty policy to on-failure — whether or not the named
process was running. -/
theorem register_replaces_record (s : SupState) (pname command dir : String)
    (env : List (String × String)) (restart : String) :
    lookupA (register s pname command dir env restart) pname =
      some ⟨pname, command, dir, env,
        (if restart = "" then "on-failure" else restart),
        "stopped", 0, 0, 0, [], []⟩ :=
  lookupA_insertA_self s pname _

/-- C10: Status for a name that is not registered does not fail: it
returns (status unknown, pid 0, zero start time) and leaves the
supervisor's state unchanged. -/
theorem status_unknown_name (s : SupState) (pname : String)
    (h : lookupA s pname = none) :
    statusOp s pname = (("unknown", 0, 0), s) := by
  simp [statusOp, h]

/-- Witness for C10 at a concrete state and unregistered name. -/
theorem status_unknown_name_witness :
    statusOp supStateC4 "ghost" = (("unknown", 0, 0), supStateC4) :=
  status_unknown_name supStateC4 "ghost" (by decide)

/-! ## pkg/core Item and the poll loop's delta and scoring (poll.go).

`float64` gauges are embedded as `ℚ`: every finite IEEE double is a
rational, and the comparisons the code performs (equality, `> 5.0`)
coincide with the rational ones on such values. -/

structure Item where
  id : String
  kind : String
  name : String
  group : String
  status : String
  score : Int
  pids : List Nat
  cpuPct : ℚ
  memBytes : Nat
  uptimeSec : Nat
  ports : List Nat
  tags : List String
  source : List (String × String)
  deriving DecidableEq

abbrev Table := List (String × Item)

/-- Go `itemChanged`: two items differ for the delta iff their
{status, cpu_percent, memory_bytes, score} quadruples differ. -/
def itemChanged (a b : Item) : Bool :=
  decide (a.status ≠ b.status) || decide (a.cpuPct ≠ b.cpuPct)
    || decide (a.memBytes ≠ b.memBytes) || decide (a.score ≠ b.score)

/-- The added-branch of `computeDelta`'s first loop over `new`. -/
def deltaAdded (old : Table) : Table → List Item
  | [] => []
  | kv :: rest =>
    match lookupA old kv.1 with
    | none => kv.2 :: deltaAdded old rest
    | some _ => deltaAdded old rest

/-- The updated-branch of `computeDelta`'s first loop over `new`. -/
def deltaUpdated (old : Table) : Table → List Item
  | [] => []
  | kv :: rest =>
    match lookupA old kv.1 with
    | none => deltaUpdated old rest
    | some prev =>
      if itemChanged prev kv.2 then kv.2 :: deltaUpdated old rest
      else deltaUpdated old rest

/-- `computeDelta`'s second loop over `old`, collecting removed ids. -/
def deltaRemoved (new : Table) : Table → List String
  | [] => []
  | kv :: rest =>
    if (lookupA new kv.1).isNone then kv.1 :: deltaRemoved new rest
    else deltaRemoved new rest

structure Delta where
  added : List Item
  updated : List Item
  removed : List String
  deriving DecidableEq

/-- Go `computeDelta`: one pass over `new` filling added/updated, one pass
over `old` filling removed. -/
def computeDelta (old new : Table) : Delta :=
  ⟨deltaAdded old new, deltaUpdated old new, deltaRemoved new old⟩

theorem deltaAdded_eq (old new : Table) :
    deltaAdded old new
      = (new.filter (fun kv => (lookupA old kv.1).isNone)).map Prod.snd := by
  induction new with
  | nil => rfl
  | cons kv rest ih =>
    cases h : lookupA old kv.1 with
    | none => simp [deltaAdded, h, ih, List.filter_cons]
    | some prev => simp [deltaAdded, h, ih, List.filter_cons]

theorem deltaUpdated_eq (old new : Table) :
    deltaUpdated old new
      = (new.filter (fun kv =>
          match lookupA old kv.1 with
          | none => false
          | some prev => itemChanged prev kv.2)).map Prod.snd := by
  induction new with
  | nil => rfl
  | cons kv rest ih =>
    cases h : lookupA old kv.1 with
    | none => simp [deltaUpdated, h, ih, List.filter_cons]
    | some prev =>
      by_cases hc : itemChanged prev kv.2 <;>
        simp [deltaUpdated, h, ih, List.filter_cons, hc]

theorem deltaRemoved_eq (old new : Table) :
    deltaRemoved new old
      = (old.filter (fun kv => (lookupA new kv.1).isNone)).map Prod.fst := by
  induction old with
  | nil => rfl
  | cons kv rest ih =>
    by_cases h : (lookupA new kv.1).isNone <;>
      simp [deltaRemoved, h, ih, List.filter_cons]

theorem mem_deltaAdded {old new : Table} {it : Item} (h : it ∈ deltaAdded old new) :
    ∃ kv ∈ new, kv.2 = it ∧ lookupA old kv.1 = none := by
  rw [deltaAdded_eq] at h
  obtain ⟨kv, hkv, hsnd⟩ := List.mem_map.mp h
  obtain ⟨hmem, hfilt⟩ := List.mem_filter.mp hkv
  exact ⟨kv, hmem, hsnd, Option.isNone_iff_eq_none.mp hfilt⟩

theorem mem_deltaUpdated {old new : Table} {it : Item} (h : it ∈ deltaUpdated old new) :
    ∃ kv ∈ new, kv.2 = it ∧
      ∃ prev, lookupA old kv.1 = some prev ∧ itemChanged prev kv.2 = true := by
  rw [deltaUpdated_eq] at h
  obtain ⟨kv, hkv, hsnd⟩ := List.mem_map.mp h
  obtain ⟨hmem, hfilt⟩ := List.mem_filter.mp hkv
  refine ⟨kv, hmem, hsnd, ?_⟩
  cases hl : lookupA old kv.1 with
  | none => rw [hl] at hfilt; exact absurd hfilt (by simp)
  | some prev => rw [hl] at hfilt; exact ⟨prev, rfl, hfilt⟩

theorem mem_deltaRemoved {old new : Table} {someId : String}
    (h : someId ∈ deltaRemoved new old) :
    (∃ kv ∈ old, kv.1 = someId) ∧ lookupA new someId = none := by
  rw [deltaRemoved_eq] at h
  obtain ⟨kv, hkv, hfst⟩ := List.mem_map.mp h
  obtain ⟨hmem, hfilt⟩ := List.mem_filter.mp hkv
  subst hfst
  exact ⟨⟨kv, hmem, rfl⟩, Option.isNone_iff_eq_none.mp hfilt⟩

/-- C7: over one poll cycle, `added` holds exactly the items whose id is in
`new` but not `old`, `updated` exactly the items present in both tables
whose {status, cpu_percent, memory_bytes, score} quadruple differs,
`removed` exactly the ids in `old` but not `new`; a change in any other
field never marks an item updated, and — when each table entry's item
carries its own key as id, the poll loop's invariant — the three lists are
pairwise disjoint on ids. -/
theorem delta_characterization (old new : Table)
    (hnew : ∀ kv ∈ new, (kv.2 : Item).id = kv.1) :
    (computeDelta old new).added
      = (new.filter (fun kv => (lookupA old kv.1).isNone)).map Prod.snd ∧
    (computeDelta old new).updated
      = (new.filter (fun kv =>
          match lookupA old kv.1 with
          | none => false
          | some prev => itemChanged prev kv.2)).map Prod.snd ∧
    (computeDelta old new).removed
      = (old.filter (fun kv => (lookupA new kv.1).isNone)).map Prod.fst ∧
    (∀ a b : Item, a.status = b.status → a.cpuPct = b.cpuPct →
      a.memBytes = b.memBytes → a.score = b.score → itemChanged a b = false) ∧
    (∀ it ∈ (computeDelta old new).added, it.id ∉ (computeDelta old new).removed) ∧
    (∀ it ∈ (computeDelta old new).updated, it.id ∉ (computeDelta old new).removed) ∧
    (∀ it1 ∈ (computeDelta old new).added, ∀ it2 ∈ (computeDelta old new).updated,
      it1.id ≠ it2.id) := by
  refine ⟨deltaAdded_eq old new, deltaUpdated_eq old new, deltaRemoved_eq old new,
    ?_, ?_, ?_, ?_⟩
  · intro a b h1 h2 h3 h4
    simp [itemChanged, h1, h2, h3, h4]
  · intro it hit hrem
    obtain ⟨kv, hkv, hsnd, hnone⟩ := mem_deltaAdded hit
    obtain ⟨-, hlook⟩ := mem_deltaRemoved hrem
    have hid : it.id = kv.1 := by rw [← hsnd]; exact hnew kv hkv
    rw [hid] at hlook
    have hmem : kv.1 ∈ new.map Prod.fst := List.mem_map_of_mem Prod.fst hkv
    exact (lookupA_eq_none_iff new kv.1).mp hlook hmem
  · intro it hit hrem
    obtain ⟨kv, hkv, hsnd, prev, hsome, hch⟩ := mem_deltaUpdated hit
    obtain ⟨-, hlook⟩ := mem_deltaRemoved hrem
    have hid : it.id = kv.1 := by rw [← hsnd]; exact hnew kv hkv
    rw [hid] at hlook
    have hmem : kv.1 ∈ new.map Prod.fst := List.mem_map_of_mem Prod.fst hkv
    exact (lookupA_eq_none_iff new kv.1).mp hlook hmem
  · intro it1 h1 it2 h2 heq
    obtain ⟨kv1, hkv1, hsnd1, hnone⟩ := mem_deltaAdded h1
    obtain ⟨kv2, hkv2, hsnd2, prev, hsome, -⟩ := mem_deltaUpdated h2
    have hid1 : it1.id = kv1.1 := by rw [← hsnd1]; exact hnew kv1 hkv1
    have hid2 : it2.id = kv2.1 := by rw [← hsnd2]; exact hnew kv2 hkv2
    rw [hid1, hid2] at heq
    rw [heq] at hnone
    rw [hnone] at hsome
    exact Option.noConfusion hsome

def itemOldA : Item := ⟨"a", "exec", "A", "", "running", 0, [], 0, 0, 0, [], [], []⟩

def itemNewA : Item := ⟨"a", "exec", "A", "", "stopped", 0, [], 0, 0, 0, [], [], []⟩

def itemNewC : Item := ⟨"c", "docker", "C", "", "running", 0, [], 0, 0, 0, [], [], []⟩

def itemOldB : Item := ⟨"b", "systemd", "B", "", "running", 0, [], 0, 0, 0, [], [], []⟩

def oldTableW : Table := [("a", itemOldA), ("b", itemOldB)]

def newTableW : Table := [("a", itemNewA), ("c", itemNewC)]

/-- Witness for C7: one updated item (status change), one added, one
removed, on concrete tables. -/
theorem delta_characterization_witness :
    (computeDelta oldTableW newTableW).added = [itemNewC] ∧
    (computeDelta oldTableW newTableW).updated = [itemNewA] ∧
    (computeDelta oldTableW newTableW).removed = ["b"] := by
  have h := delta_characterization oldTableW newTableW (by decide)
  refine ⟨?_, ?_, ?_⟩
  · rw [h.1]; decide
  · rw [h.2.1]; decide
  · rw [h.2.2.1]; decide

/-- Go `matchesManifestItem`: same kind. -/
def matchesManifestItem (item : Item) (mi : MItem) : Bool :=
  decide (item.kind = mi.kind)

/-- Go `matchesRule`: every key of the rule's match map must hold; only
`kind` and `group` are interpreted, other keys are ignored. -/
def matchesRule (item : Item) (rule : Rule) : Bool :=
  rule.matchOn.all (fun kv =>
    if kv.1 = "kind" then decide (item.kind = kv.2)
    else if kv.1 = "group" then decide (item.group = kv.2)
    else true)

/-- Go `computeScore`: manifest-membership bonus (+60 at most once, the
loop breaks on the first match), rule scores summed, +10 for
cpu_percent > 5.0, +5 for memory_bytes > 100 MiB; the manifest pointer may
be nil (`none`). -/
def computeScore (item : Item) (m : Option Manifest) : Int :=
  let score : Int := 0
  let score : Int :=
    match m with
    | none => score
    | some mf =>
      let score : Int :=
        if mf.items.any (fun kv => matchesManifestItem item kv.2) then score + 60
        else score
      mf.rules.foldl (fun sc r => if matchesRule item r then sc + r.score else sc) score
  let score : Int := if item.cpuPct > 5 then score + 10 else score
  if item.memBytes > 100 * 1024 * 1024 then score + 5 else score

theorem foldl_rule_filter (item : Item) (l : List Rule) :
    ∀ a : Int,
      l.foldl (fun sc r => if matchesRule item r then sc + r.score else sc) a
        = a + ((l.filter (fun r => matchesRule item r)).map Rule.score).sum := by
  induction l with
  | nil => intro a; simp
  | cons r rest ih =>
    intro a
    by_cases h : matchesRule item r
    · simp only [List.foldl_cons, if_pos h, ih, List.filter_cons, h, if_true]
      simp
      ring
    · simp only [List.foldl_cons, if_neg h, ih, List.filter_cons]

theorem computeScore_eq (item : Item) (mf : Manifest) :
    computeScore item (some mf) =
      (if mf.items.any (fun kv => matchesManifestItem item kv.2) then 60 else 0)
      + ((mf.rules.filter (fun r => matchesRule item r)).map Rule.score).sum
      + (if item.cpuPct > 5 then 10 else 0)
      + (if item.memBytes > 100 * 1024 * 1024 then 5 else 0) := by
  simp only [computeScore, foldl_rule_filter]
  by_cases h1 : mf.items.any (fun kv => matchesManifestItem item kv.2) <;>
    by_cases h2 : item.cpuPct > 5 <;>
    by_cases h3 : item.memBytes > 100 * 1024 * 1024 <;>
    simp [h1, h2, h3]

theorem matchesRule_iff (item : Item) (r : Rule) :
    matchesRule item r = true ↔
      ∀ kv ∈ r.matchOn, (kv.1 = "kind" → item.kind = kv.2) ∧
        (kv.1 = "group" → item.group = kv.2) := by
  unfold matchesRule
  rw [List.all_eq_true]
  constructor
  · intro h kv hkv
    have hk := h kv hkv
    constructor
    · intro h1
      rw [h1] at hk
      simpa using hk
    · intro h1
      rw [h1] at hk
      simpa using hk
  · intro h kv hkv
    obtain ⟨h1, h2⟩ := h kv hkv
    by_cases hk : kv.1 = "kind"
    · simp [hk, h1 hk]
    · by_cases hg : kv.1 = "group"
      · simp [hk, hg, h2 hg]
      · simp [hk, hg]

/-- C8: the score is the sum of the manifest-membership bonus (60 when any
ManifestItem shares the item's kind, added at most once), the scores of the
rules all of whose match keys (kind, group) hold on the item, the CPU bonus
(10 iff cpu_percent is strictly above 5.0 — equality earns nothing), and
the memory bonus (5 iff memory_bytes exceeds 100·2^20); permuting the rules
never changes the result. -/
theorem score_decomposition (item : Item) (mf : Manifest) :
    computeScore item (some mf) =
      (if mf.items.any (fun kv => matchesManifestItem item kv.2) then 60 else 0)
      + ((mf.rules.filter (fun r => matchesRule item r)).map Rule.score).sum
      + (if item.cpuPct > 5 then 10 else 0)
      + (if item.memBytes > 100 * 1024 * 1024 then 5 else 0) ∧
    (∀ mi : MItem, matchesManifestItem item mi = true ↔ item.kind = mi.kind) ∧
    (∀ r : Rule, matchesRule item r = true ↔
      ∀ kv ∈ r.matchOn, (kv.1 = "kind" → item.kind = kv.2) ∧
        (kv.1 = "group" → item.group = kv.2)) ∧
    (∀ rules2 : List Rule, rules2.Perm mf.rules →
      computeScore item (some { mf with rules := rules2 })
        = computeScore item (some mf)) := by
  refine ⟨computeScore_eq item mf, ?_, matchesRule_iff item, ?_⟩
  · intro mi
    simp [matchesManifestItem]
  · intro rules2 hperm
    rw [computeScore_eq, computeScore_eq]
    have hsum : ((rules2.filter (fun r => matchesRule item r)).map Rule.score).sum
        = ((mf.rules.filter (fun r => matchesRule item r)).map Rule.score).sum :=
      List.Perm.sum_eq (List.Perm.map Rule.score (List.Perm.filter _ hperm))
    rw [hsum]

def itemScoreW : Item :=
  ⟨"exec:supervisor:web", "exec", "web", "", "running", 0, [], 6, 209715200, 10,
   [], [], []⟩

def manifestScoreW : Manifest :=
  ⟨1, "my", "/app", [], [("serve", execItemC1)], none,
   [⟨[("kind", "exec")], 25⟩, ⟨[("group", "db")], 40⟩], "/tmp/stasium.yaml"⟩

/-- Witness for C8: manifest bonus 60 + matching kind-rule 25 + CPU bonus
10 (cpu 6 > 5) + memory bonus 5 (200 MiB > 100 MiB) = 100; the group rule
does not match. -/
theorem score_decomposition_witness :
    computeScore itemScoreW (some manifestScoreW) = 100 := by
  have h := (score_decomposition itemScoreW manifestScoreW).1
  rw [h]
  decide

/-! ## pkg/transport/uds — the envelope and the server's dispatch step
(server.go `handleConn`).

One decoded request line is dispatched: non-request envelopes are ignored,
an unregistered method yields an error response echoing the request id,
otherwise the handler runs and its result or error is wrapped.  A handler
is a function from the request message to a result payload or an error
string, as in Go's `HandlerFunc`. -/

structure Message where
  type : String
  id : String
  method : String
  data : Option String
  error : String
  deriving DecidableEq

/-- Go `NewResponse`: same id, method echoed, no error. -/
def newResponse (reqID method : String) (data : Option String) : Message :=
  ⟨"res", reqID, method, data, ""⟩

/-- Go `NewErrorResponse`: same id, method echoed, no data, error set. -/
def newErrorResponse (reqID method errMsg : String) : Message :=
  ⟨"res", reqID, method, none, errMsg⟩

abbrev Handler := Message → Except String String

/-- Go `handleConn`'s per-line step after JSON decoding: ignore non-request
types; reply "unknown method: <name>" when no handler is registered;
otherwise dispatch and wrap the handler's result. -/
def handleLineStep (handlers : List (String × Handler)) (msg : Message) :
    Option Message :=
  if msg.type ≠ "req" then none
  else
    match lookupA handlers msg.method with
    | none =>
      some (newErrorResponse msg.id msg.method ("unknown method: " ++ msg.method))
    | some h =>
      match h msg with
      | Except.error e => some (newErrorResponse msg.id msg.method e)
      | Except.ok r => some (newResponse msg.id msg.method (some r))

/-- C9: a request whose method has no registered handler is answered with a
response envelope carrying the same id and the error string
"unknown method: " followed by the method name; the reply is built without
dispatching any handler. -/
theorem unknown_method_response (handlers : List (String × Handler)) (msg : Message)
    (htype : msg.type = "req") (hmethod : lookupA handlers msg.method = none) :
    handleLineStep handlers msg =
      some ⟨"res", msg.id, msg.method, none, "unknown method: " ++ msg.method⟩ ∧
    (handleLineStep handlers msg).map Message.id = some msg.id := by
  constructor
  · simp [handleLineStep, htype, hmethod, newErrorResponse]
  · simp [handleLineStep, htype, hmethod, newErrorResponse]

/-- Witness for C9: a concrete request for an unregistered method. -/
theorem unknown_method_response_witness :
    handleLineStep [] ⟨"req", "req-7", "Frobnicate", none, ""⟩ =
      some ⟨"res", "req-7", "Frobnicate", none, "unknown method: Frobnicate"⟩ :=
  (unknown_method_response [] ⟨"req", "req-7", "Frobnicate", none, ""⟩ rfl rfl).1

theorem lookupA_insertA {α : Type} (l : List (String × α)) (k : String) (v : α)
    (j : String) :
    lookupA (insertA l k v) j = if j = k then some v else lookupA l j := by
  induction l with
  | nil =>
    by_cases h : j = k
    · simp [insertA, lookupA, h]
    · have h2 : ¬(k = j) := fun he => h he.symm
      simp [insertA, lookupA, h, h2]
  | cons kv rest ih =>
    by_cases hk : kv.1 = k
    · by_cases h : j = k
      · simp [insertA, hk, lookupA, h]
      · have h2 : ¬(k = j) := fun he => h he.symm
        simp [insertA, hk, lookupA, h, h2]
    · by_cases hj : kv.1 = j
      · have h2 : ¬(j = k) := fun he => hk (hj.trans he)
        simp [insertA, hk, lookupA, hj, h2]
      · simp [insertA, hk, lookupA, hj, ih]

theorem lookupA_eraseA {α : Type} (l : List (String × α)) (k j : String) :
    lookupA (eraseA l k) j = if j = k then none else lookupA l j := by
  induction l with
  | nil =>
    by_cases h : j = k <;> simp [eraseA, lookupA, h]
  | cons kv rest ih =>
    by_cases hk : kv.1 = k
    · by_cases h : j = k
      · simp [eraseA, List.filter_cons, hk, lookupA, h] at *
        simpa [eraseA] using ih
      · have h2 : ¬(k = j) := fun he => h he.symm
        simp [eraseA, List.filter_cons, hk, lookupA, h, h2] at *
        simpa [eraseA] using ih
    · by_cases hj : kv.1 = j
      · have h2 : ¬(j = k) := fun he => hk (hj.trans he)
        simp [eraseA, List.filter_cons, hk, lookupA, hj, h2]
      · simp [eraseA, List.filter_cons, hk, lookupA, hj] at *
        simpa [eraseA] using ih

/-- Supplementary to C1: a failed AddItem — name conflict, decode error,
validation failure, or write failure — leaves the in-memory manifest
unchanged: the items map is extensionally identical and every other field
is untouched.  (The incomplete rollback is specific to RemoveItem.) -/
theorem applyAddItem_failure_rollback (saveErr : Option String) (m : Manifest)
    (pname : String) (patch : MItem)
    (hfail : (applyAddItem saveErr m pname patch).2.ok = false) :
    (∀ k, lookupA (applyAddItem saveErr m pname patch).1.items k
        = lookupA m.items k) ∧
    (applyAddItem saveErr m pname patch).1.groups = m.groups ∧
    (applyAddItem saveErr m pname patch).1.rules = m.rules ∧
    (applyAddItem saveErr m pname patch).1.version = m.version ∧
    (applyAddItem saveErr m pname patch).1.root = m.root ∧
    (applyAddItem saveErr m pname patch).1.project = m.project ∧
    (applyAddItem saveErr m pname patch).1.compose = m.compose ∧
    (applyAddItem saveErr m pname patch).1.filePath = m.filePath := by
  by_cases hex : (lookupA m.items pname).isSome
  · have hm : (applyAddItem saveErr m pname patch).1 = m := by
      simp [applyAddItem, if_pos hex]
    rw [hm]
    exact ⟨fun k => rfl, rfl, rfl, rfl, rfl, rfl, rfl, rfl⟩
  · have hnone : lookupA m.items pname = none := by
      cases hl : lookupA m.items pname with
      | none => rfl
      | some x => rw [hl] at hex; simp at hex
    cases hpt : patchToItem patch with
    | error e =>
      have hm : (applyAddItem saveErr m pname patch).1 = m := by
        simp [applyAddItem, if_neg hex, hpt]
      rw [hm]
      exact ⟨fun k => rfl, rfl, rfl, rfl, rfl, rfl, rfl, rfl⟩
    | ok item =>
      by_cases hval : validate { m with items := insertA m.items pname item } ≠ []
      · have hm : (applyAddItem saveErr m pname patch).1
            = { m with items := eraseA (insertA m.items pname item) pname } := by
          simp [applyAddItem, if_neg hex, hpt, if_pos hval]
        rw [hm]
        refine ⟨?_, rfl, rfl, rfl, rfl, rfl, rfl, rfl⟩
        intro k
        show lookupA (eraseA (insertA m.items pname item) pname) k = lookupA m.items k
        rw [lookupA_eraseA, lookupA_insertA]
        by_cases hk : k = pname
        · simp [hk, hnone]
        · simp [hk]
      · cases hsv : saveErr with
        | some e =>
          have hm : (applyAddItem (some e) m pname patch).1
              = { m with items := eraseA (insertA m.items pname item) pname } := by
            simp [applyAddItem, if_neg hex, hpt, if_neg hval]
          rw [hm]
          refine ⟨?_, rfl, rfl, rfl, rfl, rfl, rfl, rfl⟩
          intro k
          show lookupA (eraseA (insertA m.items pname item) pname) k
              = lookupA m.items k
          rw [lookupA_eraseA, lookupA_insertA]
          by_cases hk : k = pname
          · simp [hk, hnone]
          · simp [hk]
        | none =>
          rw [hsv] at hfail
          simp [applyAddItem, if_neg hex, hpt, if_neg hval] at hfail

/-- Supplementary to C1: a failed UpdateItem — unknown name, decode error,
validation failure, or write failure — leaves the in-memory manifest
unchanged: the old entry is restored and every other field is untouched. -/
theorem applyUpdateItem_failure_rollback (saveErr : Option String) (m : Manifest)
    (pname : String) (patch : MItem)
    (hfail : (applyUpdateItem saveErr m pname patch).2.ok = false) :
    (∀ k, lookupA (applyUpdateItem saveErr m pname patch).1.items k
        = lookupA m.items k) ∧
    (applyUpdateItem saveErr m pname patch).1.groups = m.groups ∧
    (applyUpdateItem saveErr m pname patch).1.rules = m.rules ∧
    (applyUpdateItem saveErr m pname patch).1.version = m.version ∧
    (applyUpdateItem saveErr m pname patch).1.root = m.root ∧
    (applyUpdateItem saveErr m pname patch).1.project = m.project ∧
    (applyUpdateItem saveErr m pname patch).1.compose = m.compose ∧
    (applyUpdateItem saveErr m pname patch).1.filePath = m.filePath := by
  cases hex : lookupA m.items pname with
  | none =>
    have hm : (applyUpdateItem saveErr m pname patch).1 = m := by
      simp [applyUpdateItem, hex]
    rw [hm]
    exact ⟨fun k => rfl, rfl, rfl, rfl, rfl, rfl, rfl, rfl⟩
  | some old =>
    cases hpt : patchToItem patch with
    | error e =>
      have hm : (applyUpdateItem saveErr m pname patch).1 = m := by
        simp [applyUpdateItem, hex, hpt]
      rw [hm]
      exact ⟨fun k => rfl, rfl, rfl, rfl, rfl, rfl, rfl, rfl⟩
    | ok item =>
      by_cases hval : validate { m with items := insertA m.items pname item } ≠ []
      · have hm : (applyUpdateItem saveErr m pname patch).1
            = { m with items := insertA (insertA m.items pname item) pname old } := by
          simp [applyUpdateItem, hex, hpt, if_pos hval]
        rw [hm]
        refine ⟨?_, rfl, rfl, rfl, rfl, rfl, rfl, rfl⟩
        intro k
        show lookupA (insertA (insertA m.items pname item) pname old) k
            = lookupA m.items k
        rw [lookupA_insertA, lookupA_insertA]
        by_cases hk : k = pname
        · simp [hk, hex]
        · simp [hk]
      · cases hsv : saveErr with
        | some e =>
          have hm : (applyUpdateItem (some e) m pname patch).1
              = { m with items := insertA (insertA m.items pname item) pname old } := by
            simp [applyUpdateItem, hex, hpt, if_neg hval]
          rw [hm]
          refine ⟨?_, rfl, rfl, rfl, rfl, rfl, rfl, rfl⟩
          intro k
          show lookupA (insertA (insertA m.items pname item) pname old) k
              = lookupA m.items k
          rw [lookupA_insertA, lookupA_insertA]
          by_cases hk : k = pname
          · simp [hk, hex]
          · simp [hk]
        | none =>
          rw [hsv] at hfail
          simp [applyUpdateItem, hex, hpt, if_neg hval] at hfail
